import Mathlib

/-!
Shallow embedding of the `dcs` in-process multi-type key-value store
(`src/lib.rs`, `struct DCS`) and verification of its specification.

The Rust store owns five independently locked collections:

  store      : RwLock<HashMap<String, String>>
  list_store : RwLock<HashMap<String, Vec<String>>>
  hash_store : RwLock<HashMap<String, HashMap<String, String>>>
  set_store  : RwLock<HashMap<String, HashSet<String>>>
  zset_store : RwLock<HashMap<String, BTreeMap<String, f64>>>

Every operation acquires exactly one lock, performs a pure map update, and
returns `Ok` (the `PoisonError` branch only fires after a panic while a lock
is held, which no operation of this library can cause).  A sequential shallow
embedding therefore models each operation as a pure function from the store
state (and arguments) to its result and the updated state.

`HashMap` and `HashSet` are modelled extensionally, as functions out of the
key type (their iteration order is unspecified in Rust and never observed by
this library).  `BTreeMap<String, f64>` is modelled as an association list
kept sorted by its key — the member string — which is exactly the ordered
structure a B-tree maintains, so the model exposes the B-tree's iteration
order.  `f64` scores are only ever stored and cloned, never compared or
computed with, so they are modelled by `Rat` (exact values; the concrete
scores 1.0 and 2.0 used by the spec are exactly representable).
-/

/-- Extensional model of Rust's `HashMap<String, V>`. -/
abbrev Map (V : Type) : Type := String → Option V

/-- `HashMap::new()`. -/
def Map.empty {V : Type} : Map V := fun _ => none

/-- `HashMap::insert(k, v)` (the returned previous value is never used by the
source, so it is not modelled). -/
def Map.insert {V : Type} (m : Map V) (k : String) (v : V) : Map V :=
  fun q => if q = k then some v else m q

/-- `HashMap::remove(k)`, forgetting the returned previous value (callers that
need it read the map first). -/
def Map.remove {V : Type} (m : Map V) (k : String) : Map V :=
  fun q => if q = k then none else m q

/-- Extensional model of Rust's `HashSet<String>`. -/
abbrev HSet : Type := String → Bool

/-- `HashSet::new()`. -/
def HSet.empty : HSet := fun _ => false

/-- `HashSet::insert(v)` (inserting a duplicate is a no-op on the contents). -/
def HSet.insert (h : HSet) (v : String) : HSet :=
  fun x => if x = v then true else h x

/-- `HashSet::remove(v)`, forgetting the returned Bool (callers read
membership first). -/
def HSet.remove (h : HSet) (v : String) : HSet :=
  fun x => if x = v then false else h x

/-- `HashSet::contains(v)`. -/
def HSet.contains (h : HSet) (v : String) : Bool := h v

/-- Model of the stored `f64` scores.  The source never compares or computes
with scores — they are only inserted, cloned and removed — so any type with
decidable equality models them faithfully; `Rat` holds every score the spec
mentions exactly. -/
abbrev Score : Type := Rat

/-- Executable lexicographic strict order on char lists, modelling the
`Ord` comparison Rust's `BTreeMap<String, _>` sorts its keys by (byte-wise
lexicographic order on UTF-8 strings coincides with code-point-wise
lexicographic order). -/
def lexLtb : List Char → List Char → Bool
  | _, [] => false
  | [], _ :: _ => true
  | a :: as, b :: bs =>
    if a < b then true
    else if b < a then false
    else lexLtb as bs

/-- Executable `String` comparison: `a` strictly precedes `b` in the order
Rust's `BTreeMap` keys are sorted by. -/
def strLtb (a b : String) : Bool := lexLtb a.data b.data

/-- `BTreeMap<String, f64>` modelled as an association list sorted by key
(ascending member string), i.e. in the B-tree's iteration order. -/
abbrev ZMap : Type := List (String × Score)

/-- `BTreeMap::insert(k, v)`: replaces the score if the member is already
present, otherwise inserts at the (member-)sorted position. -/
def btreeInsert : ZMap → String → Score → ZMap
  | [], k, v => [(k, v)]
  | (q, w) :: rest, k, v =>
    if strLtb k q then (k, v) :: (q, w) :: rest
    else if k = q then (k, v) :: rest
    else (q, w) :: btreeInsert rest k v

/-- `BTreeMap::get(k).cloned()`. -/
def btreeGet : ZMap → String → Option Score
  | [], _ => none
  | (q, w) :: rest, k => if k = q then some w else btreeGet rest k

/-- `BTreeMap::remove(k)`: drops the entry for `k` and returns its score. -/
def btreeRemove : ZMap → String → Option Score × ZMap
  | [], _ => (none, [])
  | (q, w) :: rest, k =>
    if k = q then (some w, rest)
    else
      let r := btreeRemove rest k
      (r.1, (q, w) :: r.2)

/-- The state of `struct DCS`: five independent collections. -/
@[ext]
structure DCS where
  store : Map String
  list_store : Map (List String)
  hash_store : Map (Map String)
  set_store : Map HSet
  zset_store : Map ZMap

/-- `DCS::new()`. -/
def DCS.new : DCS :=
  { store := Map.empty, list_store := Map.empty, hash_store := Map.empty,
    set_store := Map.empty, zset_store := Map.empty }

/-- `DCS::set`: unconditional insert/overwrite of the scalar at `key`. -/
def DCS.set (s : DCS) (key value : String) : DCS :=
  { s with store := s.store.insert key value }

/-- `DCS::get`: read the scalar at `key`; takes only a read lock and performs
no mutation, which the embedding reflects by not returning a state. -/
def DCS.get (s : DCS) (key : String) : Option String :=
  s.store key

/-- `DCS::list_push`: `entry(key).or_insert_with(Vec::new)` then `push`,
returning the new length. -/
def DCS.list_push (s : DCS) (key value : String) : Nat × DCS :=
  let list := ((s.list_store key).getD []) ++ [value]
  (list.length, { s with list_store := s.list_store.insert key list })

/-- `DCS::list_push_multi`: `entry(key).or_insert_with(Vec::new)` then
`extend(values)`, returning the new length.  Note that the entry is created
even when `values` is empty. -/
def DCS.list_push_multi (s : DCS) (key : String) (values : List String) : Nat × DCS :=
  let list := ((s.list_store key).getD []) ++ values
  (list.length, { s with list_store := s.list_store.insert key list })

/-- `DCS::list_pop`: `Vec::pop` on the list at `key` when the entry exists
(removing and returning the tail element), `None` otherwise. -/
def DCS.list_pop (s : DCS) (key : String) : Option String × DCS :=
  match s.list_store key with
  | some list =>
    (list.getLast?, { s with list_store := s.list_store.insert key list.dropLast })
  | none => (none, s)

/-- `DCS::list_len`: `map_or(0, |list| list.len())`. -/
def DCS.list_len (s : DCS) (key : String) : Nat :=
  match s.list_store key with
  | some list => list.length
  | none => 0

/-- `DCS::hash_set`: `entry(key).or_insert_with(HashMap::new)` then insert the
field. -/
def DCS.hash_set (s : DCS) (key field value : String) : DCS :=
  let hash := ((s.hash_store key).getD Map.empty).insert field value
  { s with hash_store := s.hash_store.insert key hash }

/-- `DCS::hash_get`: the field's value, `None` when the hash or field is
missing. -/
def DCS.hash_get (s : DCS) (key field : String) : Option String :=
  match s.hash_store key with
  | some hash => hash field
  | none => none

/-- `DCS::hash_del`: `hash.remove(&field).is_some()` when the hash exists,
`false` otherwise (the map is untouched in that case). -/
def DCS.hash_del (s : DCS) (key field : String) : Bool × DCS :=
  match s.hash_store key with
  | some hash =>
    ((hash field).isSome, { s with hash_store := s.hash_store.insert key (hash.remove field) })
  | none => (false, s)

/-- `DCS::set_add`: `entry(key).or_insert_with(HashSet::new)` then
`insert(value)`. -/
def DCS.set_add (s : DCS) (key value : String) : DCS :=
  let st := ((s.set_store key).getD HSet.empty).insert value
  { s with set_store := s.set_store.insert key st }

/-- `DCS::set_is_member`: `set.contains(value)` when the set exists, `false`
otherwise. -/
def DCS.set_is_member (s : DCS) (key value : String) : Bool :=
  match s.set_store key with
  | some st => st.contains value
  | none => false

/-- `DCS::set_remove`: `set.remove(&value)` (returning prior membership) when
the set exists, `false` otherwise (the map is untouched in that case). -/
def DCS.set_remove (s : DCS) (key value : String) : Bool × DCS :=
  match s.set_store key with
  | some st =>
    (st.contains value, { s with set_store := s.set_store.insert key (st.remove value) })
  | none => (false, s)

/-- `DCS::zset_add`: `entry(key).or_insert_with(BTreeMap::new)` then
`zset.insert(value, score)` — the B-tree is keyed by the member string. -/
def DCS.zset_add (s : DCS) (key : String) (score : Score) (value : String) : DCS :=
  let z := btreeInsert ((s.zset_store key).getD []) value score
  { s with zset_store := s.zset_store.insert key z }

/-- `DCS::zset_score`: `zset.get(value).cloned()` when the sorted set exists,
`None` otherwise. -/
def DCS.zset_score (s : DCS) (key value : String) : Option Score :=
  match s.zset_store key with
  | some z => btreeGet z value
  | none => none

/-- `DCS::zset_remove`: `zset.remove(&value).is_some()` when the sorted set
exists, `false` otherwise (the map is untouched in that case). -/
def DCS.zset_remove (s : DCS) (key value : String) : Bool × DCS :=
  match s.zset_store key with
  | some z =>
    let r := btreeRemove z value
    (r.1.isSome, { s with zset_store := s.zset_store.insert key r.2 })
  | none => (false, s)

/-- One call to any of the fifteen public operations of `DCS` (arguments
included, results forgotten); used to quantify over arbitrary usage
histories of the store. -/
inductive Op : Type
  | set (k v : String)
  | get (k : String)
  | list_push (k v : String)
  | list_push_multi (k : String) (vs : List String)
  | list_pop (k : String)
  | list_len (k : String)
  | hash_set (k f v : String)
  | hash_get (k f : String)
  | hash_del (k f : String)
  | set_add (k v : String)
  | set_is_member (k v : String)
  | set_remove (k v : String)
  | zset_add (k : String) (sc : Score) (v : String)
  | zset_score (k v : String)
  | zset_remove (k v : String)
deriving DecidableEq

/-- The state transition of one operation (read-only operations take a read
lock and leave the state unchanged). -/
def Op.apply (s : DCS) : Op → DCS
  | .set k v => s.set k v
  | .get _ => s
  | .list_push k v => (s.list_push k v).2
  | .list_push_multi k vs => (s.list_push_multi k vs).2
  | .list_pop k => (s.list_pop k).2
  | .list_len _ => s
  | .hash_set k f v => s.hash_set k f v
  | .hash_get _ _ => s
  | .hash_del k f => (s.hash_del k f).2
  | .set_add k v => s.set_add k v
  | .set_is_member _ _ => s
  | .set_remove k v => (s.set_remove k v).2
  | .zset_add k sc v => s.zset_add k sc v
  | .zset_score _ _ => s
  | .zset_remove k v => (s.zset_remove k v).2

/-- Run a sequence of operations from a state. -/
def runOps (s : DCS) (ops : List Op) : DCS :=
  ops.foldl Op.apply s

/-- The five collections of the store. -/
inductive Coll : Type
  | strings
  | lists
  | hashes
  | sets
  | zsets
deriving DecidableEq

/-- The collection an operation belongs to (the single lock it takes). -/
def Op.coll : Op → Coll
  | .set .. => .strings
  | .get .. => .strings
  | .list_push .. => .lists
  | .list_push_multi .. => .lists
  | .list_pop .. => .lists
  | .list_len .. => .lists
  | .hash_set .. => .hashes
  | .hash_get .. => .hashes
  | .hash_del .. => .hashes
  | .set_add .. => .sets
  | .set_is_member .. => .sets
  | .set_remove .. => .sets
  | .zset_add .. => .zsets
  | .zset_score .. => .zsets
  | .zset_remove .. => .zsets

/-- Does the operation write key `key` of the scalar collection (i.e. can it
create that entry)? -/
def Op.writesString (key : String) : Op → Bool
  | .set k _ => k == key
  | _ => false

/-- Does the operation write key `key` of the list collection? -/
def Op.writesList (key : String) : Op → Bool
  | .list_push k _ => k == key
  | .list_push_multi k _ => k == key
  | .list_pop k => k == key
  | _ => false

/-- Does the operation write key `key` of the hash collection? -/
def Op.writesHash (key : String) : Op → Bool
  | .hash_set k _ _ => k == key
  | .hash_del k _ => k == key
  | _ => false

/-- Does the operation write key `key` of the set collection? -/
def Op.writesSet (key : String) : Op → Bool
  | .set_add k _ => k == key
  | .set_remove k _ => k == key
  | _ => false

/-- Does the operation write key `key` of the sorted-set collection? -/
def Op.writesZset (key : String) : Op → Bool
  | .zset_add k _ _ => k == key
  | .zset_remove k _ => k == key
  | _ => false

/-- Iterated `list_push` of the values in order (states chained, returned
lengths discarded). -/
def pushAll (s : DCS) (k : String) (vs : List String) : DCS :=
  vs.foldl (fun t v => (t.list_push k v).2) s

/-- Iterated `list_push` keeping the last returned length, for comparison
with `list_push_multi` (the `0` seed is overwritten by the first push). -/
def pushSeq (s : DCS) (k : String) (vs : List String) : Nat × DCS :=
  vs.foldl (fun p v => p.2.list_push k v) (0, s)

/-- `n` successive `list_pop` calls, collecting the returned values. -/
def popN (s : DCS) (k : String) : Nat → List (Option String) × DCS
  | 0 => ([], s)
  | n + 1 =>
    let r := s.list_pop k
    let rest := popN r.2 k n
    (r.1 :: rest.1, rest.2)

/-- Ordering of sorted-set entries claimed by the spec: ascending score, ties
broken by ascending member string.  This definition follows the spec's words
and is compared against the order the source's container actually keeps. -/
def specScoreOrdered : ZMap → Bool
  | [] => true
  | [_] => true
  | a :: b :: rest =>
    (decide (a.2 < b.2) || (decide (a.2 = b.2) && strLtb a.1 b.1)) &&
      specScoreOrdered (b :: rest)

/-- The member-string strict order on sorted-set entries: the key order of the
source's `BTreeMap<String, f64>`. -/
def entryLt (a b : String × Score) : Prop := a.1 < b.1

/-- A `ZMap` is strictly sorted by member string (pairwise, hence with unique
members): the invariant of the source's B-tree container. -/
def zmapSorted (l : ZMap) : Prop := l.Pairwise entryLt

example : DCS.get (DCS.set DCS.new "key1" "value1") "key1" = some "value1" := by decide
example : (btreeInsert (btreeInsert [] "a" 2) "b" 1) = [("a", 2), ("b", 1)] := by decide
example : specScoreOrdered [("a", 2), ("b", 1)] = false := by decide
example : (popN (pushAll DCS.new "k" ["x", "y"]) "k" 2).1 = [some "y", some "x"] := by decide

theorem Map.insert_self {V : Type} (m : Map V) (k : String) (v : V) :
    Map.insert m k v k = some v := by
  simp [Map.insert]

theorem Map.insert_ne {V : Type} (m : Map V) (k : String) (v : V) {q : String} (h : q ≠ k) :
    Map.insert m k v q = m q := by
  simp [Map.insert, h]

theorem Map.insert_insert {V : Type} (m : Map V) (k : String) (v w : V) :
    Map.insert (Map.insert m k v) k w = Map.insert m k w := by
  funext q
  by_cases h : q = k <;> simp [Map.insert, h]

theorem Map.remove_self {V : Type} (m : Map V) (k : String) : Map.remove m k k = none := by
  simp [Map.remove]

theorem HSet.insert_idem (h : HSet) (v : String) : (h.insert v).insert v = h.insert v := by
  funext x
  by_cases hx : x = v <;> simp [HSet.insert, hx]

theorem HSet.insert_apply_self (h : HSet) (v : String) : (h.insert v) v = true := by
  simp [HSet.insert]

theorem HSet.remove_apply_self (h : HSet) (v : String) : (h.remove v) v = false := by
  simp [HSet.remove]

/-- C5: `set(k, v)` followed by `get(k)` returns `v` for every value `v`
(the empty string included) and every prior state — the write overwrites the
scalar wholesale, and the embedding of `get` as a pure function of the state
reflects that `get` takes only a read lock and never mutates. -/
theorem C5_set_get_roundtrip (s : DCS) (k v : String) :
    (s.set k v).get k = some v := by
  simp [DCS.set, DCS.get, Map.insert_self]

/-- C7: `set_add` is idempotent on the state, after it `set_is_member` holds,
a first `set_remove` reports a removal and a second one does not. -/
theorem C7_set_add_idempotent (s : DCS) (k v : String) :
    ((s.set_add k v).set_add k v = s.set_add k v) ∧
    ((s.set_add k v).set_is_member k v = true) ∧
    (((s.set_add k v).set_remove k v).1 = true) ∧
    ((((s.set_add k v).set_remove k v).2.set_remove k v).1 = false) := by
  refine ⟨?_, ?_, ?_, ?_⟩
  · unfold DCS.set_add
    simp only [Map.insert_self, Option.getD_some, Map.insert_insert, HSet.insert_idem]
  · simp [DCS.set_add, DCS.set_is_member, Map.insert_self, HSet.contains, HSet.insert_apply_self]
  · simp [DCS.set_add, DCS.set_remove, Map.insert_self, HSet.contains, HSet.insert_apply_self]
  · simp [DCS.set_add, DCS.set_remove, Map.insert_self, HSet.contains, HSet.remove_apply_self]

/-- C10: the removal operations on a key absent from their collection return
absent/false and leave the whole state (in particular their collection's map)
exactly unchanged — unlike the writes, they never create an entry. -/
theorem C10_remove_absent_noop (s : DCS) (k f v : String) :
    (s.list_store k = none → s.list_pop k = (none, s)) ∧
    (s.hash_store k = none → s.hash_del k f = (false, s)) ∧
    (s.set_store k = none → s.set_remove k v = (false, s)) ∧
    (s.zset_store k = none → s.zset_remove k v = (false, s)) := by
  refine ⟨fun h => ?_, fun h => ?_, fun h => ?_, fun h => ?_⟩ <;>
    simp [DCS.list_pop, DCS.hash_del, DCS.set_remove, DCS.zset_remove, h]

/-- Concrete instance of `C10_remove_absent_noop` on the fresh store. -/
theorem C10_remove_absent_noop_witness :
    (DCS.new.list_store "k" = none ∧ DCS.new.list_pop "k" = (none, DCS.new)) ∧
    (DCS.new.hash_store "k" = none ∧ DCS.new.hash_del "k" "f" = (false, DCS.new)) ∧
    (DCS.new.set_store "k" = none ∧ DCS.new.set_remove "k" "v" = (false, DCS.new)) ∧
    (DCS.new.zset_store "k" = none ∧ DCS.new.zset_remove "k" "v" = (false, DCS.new)) :=
  ⟨⟨rfl, (C10_remove_absent_noop DCS.new "k" "f" "v").1 rfl⟩,
   ⟨rfl, (C10_remove_absent_noop DCS.new "k" "f" "v").2.1 rfl⟩,
   ⟨rfl, (C10_remove_absent_noop DCS.new "k" "f" "v").2.2.1 rfl⟩,
   ⟨rfl, (C10_remove_absent_noop DCS.new "k" "f" "v").2.2.2 rfl⟩⟩

/-- C6: `hash_del` returns true exactly when the field is present at the
moment of the call (false when the hash or the field is missing), afterwards
`hash_get` on that field returns absent, `hash_set` then `hash_del` returns
true, and `hash_del` of a never-set field returns false. -/
theorem C6_hash_del_semantics (s : DCS) (k f v : String) :
    ((s.hash_del k f).1 = true ↔ (s.hash_get k f).isSome = true) ∧
    ((s.hash_del k f).2.hash_get k f = none) ∧
    (((s.hash_set k f v).hash_del k f).1 = true) ∧
    (s.hash_get k f = none → (s.hash_del k f).1 = false) := by
  refine ⟨?_, ?_, ?_, fun habs => ?_⟩
  · cases h : s.hash_store k <;> simp [DCS.hash_del, DCS.hash_get, h]
  · cases h : s.hash_store k <;>
      simp [DCS.hash_del, DCS.hash_get, h, Map.insert_self, Map.remove_self]
  · simp [DCS.hash_set, DCS.hash_del, Map.insert_self]
  · cases h : s.hash_store k with
    | none => simp [DCS.hash_del, h]
    | some hash =>
      simp only [DCS.hash_get, h] at habs
      simp [DCS.hash_del, h, habs]

/-- Concrete instance of `C6_hash_del_semantics` after one `hash_set`. -/
theorem C6_hash_del_semantics_witness :
    (((DCS.new.hash_set "k" "f" "v").hash_del "k" "f").1 = true ↔
      ((DCS.new.hash_set "k" "f" "v").hash_get "k" "f").isSome = true) ∧
    (((DCS.new.hash_set "k" "f" "v").hash_del "k" "f").2.hash_get "k" "f" = none) ∧
    ((((DCS.new.hash_set "k" "f" "v").hash_set "k" "f" "v").hash_del "k" "f").1 = true) ∧
    (DCS.new.hash_get "k" "f" = none ∧ (DCS.new.hash_del "k" "f").1 = false) :=
  ⟨(C6_hash_del_semantics (DCS.new.hash_set "k" "f" "v") "k" "f" "v").1,
   (C6_hash_del_semantics (DCS.new.hash_set "k" "f" "v") "k" "f" "v").2.1,
   (C6_hash_del_semantics (DCS.new.hash_set "k" "f" "v") "k" "f" "v").2.2.1,
   ⟨rfl, (C6_hash_del_semantics DCS.new "k" "f" "v").2.2.2 rfl⟩⟩

theorem nonwriter_preserves (s : DCS) (op : Op) (key : String) :
    (op.writesString key = false → (op.apply s).store key = s.store key) ∧
    (op.writesList key = false → (op.apply s).list_store key = s.list_store key) ∧
    (op.writesHash key = false → (op.apply s).hash_store key = s.hash_store key) ∧
    (op.writesSet key = false → (op.apply s).set_store key = s.set_store key) ∧
    (op.writesZset key = false → (op.apply s).zset_store key = s.zset_store key) := by
  cases op <;>
    refine ⟨fun h => ?_, fun h => ?_, fun h => ?_, fun h => ?_, fun h => ?_⟩ <;>
    first
      | rfl
      | (simp only [Op.writesString, Op.writesList, Op.writesHash, Op.writesSet,
            Op.writesZset, beq_eq_false_iff_ne] at h
         simp only [Op.apply, DCS.set, DCS.list_push, DCS.list_push_multi, DCS.hash_set,
            DCS.set_add, DCS.zset_add]
         exact Map.insert_ne _ _ _ (Ne.symm h))
      | (simp only [Op.apply, DCS.list_pop, DCS.hash_del, DCS.set_remove, DCS.zset_remove]
         split <;> rfl)
      | (simp only [Op.writesString, Op.writesList, Op.writesHash, Op.writesSet,
            Op.writesZset, beq_eq_false_iff_ne] at h
         simp only [Op.apply, DCS.list_pop, DCS.hash_del, DCS.set_remove, DCS.zset_remove]
         split
         · exact Map.insert_ne _ _ _ (Ne.symm h)
         · rfl)

/-- C9: every operation leaves the four collections other than its own
exactly unchanged (so keys never interact across collections and entries
never migrate between them). -/
theorem C9_collection_frame (s : DCS) (op : Op) :
    (op.coll ≠ Coll.strings → (op.apply s).store = s.store) ∧
    (op.coll ≠ Coll.lists → (op.apply s).list_store = s.list_store) ∧
    (op.coll ≠ Coll.hashes → (op.apply s).hash_store = s.hash_store) ∧
    (op.coll ≠ Coll.sets → (op.apply s).set_store = s.set_store) ∧
    (op.coll ≠ Coll.zsets → (op.apply s).zset_store = s.zset_store) := by
  cases op <;>
    refine ⟨fun h => ?_, fun h => ?_, fun h => ?_, fun h => ?_, fun h => ?_⟩ <;>
    first
      | exact absurd rfl h
      | rfl
      | (simp only [Op.apply, DCS.list_pop, DCS.hash_del, DCS.set_remove, DCS.zset_remove]
         split <;> rfl)

/-- Concrete instance of `C9_collection_frame`: a scalar write touches none
of the other four collections. -/
theorem C9_collection_frame_witness :
    ((Op.set "k" "v").coll ≠ Coll.lists ∧
      ((Op.set "k" "v").apply DCS.new).list_store = DCS.new.list_store) ∧
    ((Op.set "k" "v").coll ≠ Coll.hashes ∧
      ((Op.set "k" "v").apply DCS.new).hash_store = DCS.new.hash_store) ∧
    ((Op.set "k" "v").coll ≠ Coll.sets ∧
      ((Op.set "k" "v").apply DCS.new).set_store = DCS.new.set_store) ∧
    ((Op.set "k" "v").coll ≠ Coll.zsets ∧
      ((Op.set "k" "v").apply DCS.new).zset_store = DCS.new.zset_store) :=
  ⟨⟨by decide, (C9_collection_frame DCS.new (Op.set "k" "v")).2.1 (by decide)⟩,
   ⟨by decide, (C9_collection_frame DCS.new (Op.set "k" "v")).2.2.1 (by decide)⟩,
   ⟨by decide, (C9_collection_frame DCS.new (Op.set "k" "v")).2.2.2.1 (by decide)⟩,
   ⟨by decide, (C9_collection_frame DCS.new (Op.set "k" "v")).2.2.2.2 (by decide)⟩⟩

theorem list_push_lookup (s : DCS) (k v : String) :
    ((s.list_push k v).2).list_store k = some ((s.list_store k).getD [] ++ [v]) := by
  simp [DCS.list_push, Map.insert_self]

theorem pushAll_lookup : ∀ (vs : List String) (s : DCS) (k : String), vs ≠ [] →
    (pushAll s k vs).list_store k = some ((s.list_store k).getD [] ++ vs)
  | [], _, _, h => absurd rfl h
  | [v], s, k, _ => by simpa [pushAll] using list_push_lookup s k v
  | v :: w :: ws, s, k, _ => by
    rw [show pushAll s k (v :: w :: ws) = pushAll ((s.list_push k v).2) k (w :: ws) from rfl,
      pushAll_lookup (w :: ws) ((s.list_push k v).2) k (by simp), list_push_lookup]
    simp

theorem popN_succ (s : DCS) (k : String) (n : Nat) :
    popN s k (n + 1) =
      ((s.list_pop k).1 :: (popN (s.list_pop k).2 k n).1, (popN (s.list_pop k).2 k n).2) := rfl

theorem popN_lookup (l : List String) : ∀ (s : DCS) (k : String), s.list_store k = some l →
    (popN s k l.length).1 = l.reverse.map some ∧
      (popN s k l.length).2.list_store k = some [] := by
  induction l using List.reverseRecOn with
  | nil =>
    intro s k h
    exact ⟨rfl, h⟩
  | append_singleton l a ih =>
    intro s k h
    have hpop : s.list_pop k = (some a, { s with list_store := s.list_store.insert k l }) := by
      simp [DCS.list_pop, h]
    have hlook : ({ s with list_store := s.list_store.insert k l } : DCS).list_store k
        = some l := Map.insert_self _ _ _
    obtain ⟨ih1, ih2⟩ := ih _ k hlook
    rw [show (l ++ [a]).length = l.length + 1 by simp, popN_succ, hpop]
    refine ⟨?_, ih2⟩
    simp [ih1]

/-- C2: starting from a state where the list at `k` is absent or empty,
pushing `v1, …, vn` and then popping `n` times yields exactly the reverse
sequence `vn, …, v1`, and one further pop returns absent. -/
theorem C2_push_pop_lifo (s : DCS) (k : String) (vs : List String)
    (h : s.list_store k = none ∨ s.list_store k = some []) :
    (popN (pushAll s k vs) k vs.length).1 = vs.reverse.map some ∧
    ((popN (pushAll s k vs) k vs.length).2.list_pop k).1 = none := by
  have hempty : (s.list_store k).getD [] = [] := by rcases h with h | h <;> simp [h]
  cases vs with
  | nil =>
    refine ⟨rfl, ?_⟩
    show (s.list_pop k).1 = none
    rcases h with h | h <;> simp [DCS.list_pop, h]
  | cons v vs =>
    have hl : (pushAll s k (v :: vs)).list_store k = some (v :: vs) := by
      rw [pushAll_lookup (v :: vs) s k (by simp), hempty]
      simp
    obtain ⟨h1, h2⟩ := popN_lookup (v :: vs) _ k hl
    refine ⟨h1, ?_⟩
    simp only [List.length_cons] at h2
    simp [DCS.list_pop, h2]

/-- Concrete instance of `C2_push_pop_lifo` on the fresh store. -/
theorem C2_push_pop_lifo_witness :
    (DCS.new.list_store "k" = none ∨ DCS.new.list_store "k" = some []) ∧
    ((popN (pushAll DCS.new "k" ["a", "b"]) "k" (["a", "b"] : List String).length).1 =
        (["a", "b"] : List String).reverse.map some ∧
      ((popN (pushAll DCS.new "k" ["a", "b"]) "k"
          (["a", "b"] : List String).length).2.list_pop "k").1 = none) :=
  ⟨Or.inl rfl, C2_push_pop_lifo DCS.new "k" ["a", "b"] (Or.inl rfl)⟩

theorem pushSeq_eq : ∀ (vs : List String) (s : DCS) (k : String), vs ≠ [] →
    pushSeq s k vs =
      (((s.list_store k).getD [] ++ vs).length,
       { s with list_store := s.list_store.insert k ((s.list_store k).getD [] ++ vs) })
  | [], _, _, h => absurd rfl h
  | [v], _, _, _ => rfl
  | v :: w :: ws, s, k, _ => by
    rw [show pushSeq s k (v :: w :: ws) = pushSeq (s.list_push k v).2 k (w :: ws) from rfl,
      pushSeq_eq (w :: ws) (s.list_push k v).2 k (by simp), list_push_lookup]
    show _ = ((((s.list_store k).getD [] ++ (v :: w :: ws)).length : Nat),
      ({ s with list_store := s.list_store.insert k ((s.list_store k).getD [] ++ (v :: w :: ws)) } : DCS))
    simp only [DCS.list_push, Option.getD_some, Map.insert_insert]
    rw [show ((s.list_store k).getD [] ++ [v]) ++ (w :: ws)
        = (s.list_store k).getD [] ++ (v :: w :: ws) by simp]

/-- C3 (amended): for every nonempty `vs`, `push_multi(k, vs)` returns the
same length and produces exactly the same final state as pushing the values
of `vs` one by one (the sequential history's length is the one returned by
its last push). -/
theorem C3_push_multi_equiv_seq (s : DCS) (k : String) (vs : List String) (h : vs ≠ []) :
    s.list_push_multi k vs = pushSeq s k vs := by
  rw [pushSeq_eq vs s k h]
  rfl

/-- Concrete instance of `C3_push_multi_equiv_seq`. -/
theorem C3_push_multi_equiv_seq_witness :
    ((["a", "b", "c"] : List String) ≠ []) ∧
    DCS.new.list_push_multi "k" ["a", "b", "c"] = pushSeq DCS.new "k" ["a", "b", "c"] :=
  ⟨by simp, C3_push_multi_equiv_seq DCS.new "k" ["a", "b", "c"] (by simp)⟩

/-- C3 as stated is false for the empty value list: `push_multi(k, [])`
creates an (empty) list entry for `k` via `entry(key).or_insert_with`, while
the sequence of zero `push` calls leaves the state untouched, so the final
store states differ on a fresh store. -/
theorem C3_counterexample :
    (DCS.new.list_push_multi "k" []).2 ≠ (pushSeq DCS.new "k" []).2 := by
  intro h
  have h2 := congrArg (fun t : DCS => t.list_store "k") h
  simp only [DCS.list_push_multi, pushSeq, List.foldl_nil] at h2
  rw [Map.insert_self] at h2
  simp [DCS.new, Map.empty] at h2

theorem runOps_cons (s : DCS) (op : Op) (ops : List Op) :
    runOps s (op :: ops) = runOps (op.apply s) ops := rfl

theorem runOps_store (ops : List Op) : ∀ (s : DCS) (key : String),
    (∀ op ∈ ops, op.writesString key = false) → (runOps s ops).store key = s.store key := by
  induction ops with
  | nil => intro s key _; rfl
  | cons op ops ih =>
    intro s key h
    rw [runOps_cons, ih (op.apply s) key (fun o ho => h o (List.mem_cons_of_mem _ ho)),
      (nonwriter_preserves s op key).1 (h op (List.mem_cons_self _ _))]

theorem runOps_list (ops : List Op) : ∀ (s : DCS) (key : String),
    (∀ op ∈ ops, op.writesList key = false) → (runOps s ops).list_store key = s.list_store key := by
  induction ops with
  | nil => intro s key _; rfl
  | cons op ops ih =>
    intro s key h
    rw [runOps_cons, ih (op.apply s) key (fun o ho => h o (List.mem_cons_of_mem _ ho)),
      (nonwriter_preserves s op key).2.1 (h op (List.mem_cons_self _ _))]

theorem runOps_hash (ops : List Op) : ∀ (s : DCS) (key : String),
    (∀ op ∈ ops, op.writesHash key = false) → (runOps s ops).hash_store key = s.hash_store key := by
  induction ops with
  | nil => intro s key _; rfl
  | cons op ops ih =>
    intro s key h
    rw [runOps_cons, ih (op.apply s) key (fun o ho => h o (List.mem_cons_of_mem _ ho)),
      (nonwriter_preserves s op key).2.2.1 (h op (List.mem_cons_self _ _))]

theorem runOps_set (ops : List Op) : ∀ (s : DCS) (key : String),
    (∀ op ∈ ops, op.writesSet key = false) → (runOps s ops).set_store key = s.set_store key := by
  induction ops with
  | nil => intro s key _; rfl
  | cons op ops ih =>
    intro s key h
    rw [runOps_cons, ih (op.apply s) key (fun o ho => h o (List.mem_cons_of_mem _ ho)),
      (nonwriter_preserves s op key).2.2.2.1 (h op (List.mem_cons_self _ _))]

theorem runOps_zset (ops : List Op) : ∀ (s : DCS) (key : String),
    (∀ op ∈ ops, op.writesZset key = false) → (runOps s ops).zset_store key = s.zset_store key := by
  induction ops with
  | nil => intro s key _; rfl
  | cons op ops ih =>
    intro s key h
    rw [runOps_cons, ih (op.apply s) key (fun o ho => h o (List.mem_cons_of_mem _ ho)),
      (nonwriter_preserves s op key).2.2.2.2 (h op (List.mem_cons_self _ _))]

/-- C4: after any sequence of operations none of which writes key `k` in the
relevant collection, starting from the fresh store, `get`, `hash_get` and
`zset_score` at `k` return absent, `list_len` returns 0 and `set_is_member`
returns false — each of these as an ordinary (`Ok`) return value. -/
theorem C4_never_written_absent (ops : List Op) (k f v : String) :
    ((∀ op ∈ ops, op.writesString k = false) → (runOps DCS.new ops).get k = none) ∧
    ((∀ op ∈ ops, op.writesHash k = false) → (runOps DCS.new ops).hash_get k f = none) ∧
    ((∀ op ∈ ops, op.writesZset k = false) → (runOps DCS.new ops).zset_score k v = none) ∧
    ((∀ op ∈ ops, op.writesList k = false) → (runOps DCS.new ops).list_len k = 0) ∧
    ((∀ op ∈ ops, op.writesSet k = false) → (runOps DCS.new ops).set_is_member k v = false) := by
  refine ⟨fun h => ?_, fun h => ?_, fun h => ?_, fun h => ?_, fun h => ?_⟩
  · rw [DCS.get, runOps_store ops DCS.new k h]
    rfl
  · rw [DCS.hash_get, runOps_hash ops DCS.new k h]
    rfl
  · rw [DCS.zset_score, runOps_zset ops DCS.new k h]
    rfl
  · rw [DCS.list_len, runOps_list ops DCS.new k h]
    rfl
  · rw [DCS.set_is_member, runOps_set ops DCS.new k h]
    rfl

/-- Concrete instance of `C4_never_written_absent`: a history that writes
other keys in every collection never makes key `"k"` visible. -/
theorem C4_never_written_absent_witness :
    ((∀ op ∈ [Op.set "a" "x", Op.list_push "b" "y", Op.hash_set "c" "f" "z",
        Op.set_add "d" "w", Op.zset_add "e" 1 "m"], op.writesString "k" = false) ∧
      (runOps DCS.new [Op.set "a" "x", Op.list_push "b" "y", Op.hash_set "c" "f" "z",
        Op.set_add "d" "w", Op.zset_add "e" 1 "m"]).get "k" = none) ∧
    ((∀ op ∈ [Op.set "a" "x", Op.list_push "b" "y", Op.hash_set "c" "f" "z",
        Op.set_add "d" "w", Op.zset_add "e" 1 "m"], op.writesHash "k" = false) ∧
      (runOps DCS.new [Op.set "a" "x", Op.list_push "b" "y", Op.hash_set "c" "f" "z",
        Op.set_add "d" "w", Op.zset_add "e" 1 "m"]).hash_get "k" "f" = none) ∧
    ((∀ op ∈ [Op.set "a" "x", Op.list_push "b" "y", Op.hash_set "c" "f" "z",
        Op.set_add "d" "w", Op.zset_add "e" 1 "m"], op.writesZset "k" = false) ∧
      (runOps DCS.new [Op.set "a" "x", Op.list_push "b" "y", Op.hash_set "c" "f" "z",
        Op.set_add "d" "w", Op.zset_add "e" 1 "m"]).zset_score "k" "v" = none) ∧
    ((∀ op ∈ [Op.set "a" "x", Op.list_push "b" "y", Op.hash_set "c" "f" "z",
        Op.set_add "d" "w", Op.zset_add "e" 1 "m"], op.writesList "k" = false) ∧
      (runOps DCS.new [Op.set "a" "x", Op.list_push "b" "y", Op.hash_set "c" "f" "z",
        Op.set_add "d" "w", Op.zset_add "e" 1 "m"]).list_len "k" = 0) ∧
    ((∀ op ∈ [Op.set "a" "x", Op.list_push "b" "y", Op.hash_set "c" "f" "z",
        Op.set_add "d" "w", Op.zset_add "e" 1 "m"], op.writesSet "k" = false) ∧
      (runOps DCS.new [Op.set "a" "x", Op.list_push "b" "y", Op.hash_set "c" "f" "z",
        Op.set_add "d" "w", Op.zset_add "e" 1 "m"]).set_is_member "k" "v" = false) :=
  ⟨⟨by decide, (C4_never_written_absent _ "k" "f" "v").1 (by decide)⟩,
   ⟨by decide, (C4_never_written_absent _ "k" "f" "v").2.1 (by decide)⟩,
   ⟨by decide, (C4_never_written_absent _ "k" "f" "v").2.2.1 (by decide)⟩,
   ⟨by decide, (C4_never_written_absent _ "k" "f" "v").2.2.2.1 (by decide)⟩,
   ⟨by decide, (C4_never_written_absent _ "k" "f" "v").2.2.2.2 (by decide)⟩⟩

theorem lexLtb_iff : ∀ as bs : List Char, lexLtb as bs = true ↔ List.Lex (· < ·) as bs
  | [], [] => by simp [lexLtb]
  | _ :: _, [] => by simp [lexLtb]
  | [], _ :: _ => by
    simp only [lexLtb]
    exact iff_of_true trivial List.Lex.nil
  | a :: as, b :: bs => by
    rw [lexLtb]
    split_ifs with h1 h2
    · exact iff_of_true rfl (List.Lex.rel h1)
    · refine iff_of_false (by simp) ?_
      intro hlex
      cases hlex with
      | cons h => exact absurd h2 (lt_irrefl _)
      | rel h => exact absurd h h1
    · have heq : a = b := le_antisymm (not_lt.mp h2) (not_lt.mp h1)
      subst heq
      rw [lexLtb_iff as bs]
      exact Iff.symm List.Lex.cons_iff

theorem strLtb_iff (a b : String) : strLtb a b = true ↔ a < b := by
  rw [String.lt_iff_toList_lt]
  exact lexLtb_iff a.data b.data

theorem btreeInsert_mem : ∀ (l : ZMap) (k : String) (v : Score) (b : String × Score),
    b ∈ btreeInsert l k v → b.1 = k ∨ b ∈ l
  | [], k, v, b => by
    intro hb
    simp only [btreeInsert, List.mem_singleton] at hb
    simp [hb]
  | (q, w) :: rest, k, v, b => by
    intro hb
    rw [btreeInsert] at hb
    split_ifs at hb with h1 h2
    · rcases List.mem_cons.mp hb with rfl | hb2
      · exact Or.inl rfl
      · exact Or.inr hb2
    · rcases List.mem_cons.mp hb with rfl | hb2
      · exact Or.inl rfl
      · exact Or.inr (List.mem_cons_of_mem _ hb2)
    · rcases List.mem_cons.mp hb with rfl | hb2
      · exact Or.inr (List.mem_cons_self _ _)
      · rcases btreeInsert_mem rest k v b hb2 with h | h
        · exact Or.inl h
        · exact Or.inr (List.mem_cons_of_mem _ h)

theorem zmapSorted_btreeInsert : ∀ (l : ZMap), zmapSorted l → ∀ (k : String) (v : Score),
    zmapSorted (btreeInsert l k v)
  | [], _, k, v => by simp [btreeInsert, zmapSorted]
  | (q, w) :: rest, h, k, v => by
    obtain ⟨hq, hrest⟩ := List.pairwise_cons.mp h
    rw [zmapSorted, btreeInsert]
    split_ifs with h1 h2
    · rw [List.pairwise_cons]
      refine ⟨?_, h⟩
      intro b hb
      rcases List.mem_cons.mp hb with rfl | hb2
      · exact (strLtb_iff k q).mp h1
      · exact lt_trans ((strLtb_iff k q).mp h1) (hq b hb2)
    · subst h2
      rw [List.pairwise_cons]
      exact ⟨hq, hrest⟩
    · have hqk : q < k :=
        lt_of_le_of_ne (not_lt.mp fun hlt => h1 ((strLtb_iff k q).mpr hlt)) (Ne.symm h2)
      rw [List.pairwise_cons]
      refine ⟨?_, zmapSorted_btreeInsert rest hrest k v⟩
      intro b hb
      rcases btreeInsert_mem rest k v b hb with hbk | hbrest
      · show q < b.1
        rw [hbk]
        exact hqk
      · exact hq b hbrest

theorem btreeRemove_sublist : ∀ (l : ZMap) (k : String), (btreeRemove l k).2.Sublist l
  | [], _ => List.Sublist.refl _
  | (q, w) :: rest, k => by
    rw [btreeRemove]
    split_ifs with h1
    · exact List.Sublist.cons _ (List.Sublist.refl _)
    · exact List.Sublist.cons₂ _ (btreeRemove_sublist rest k)

theorem btreeGet_insert_self : ∀ (l : ZMap) (k : String) (v : Score),
    btreeGet (btreeInsert l k v) k = some v
  | [], k, v => by simp [btreeInsert, btreeGet]
  | (q, w) :: rest, k, v => by
    rw [btreeInsert]
    split_ifs with h1 h2
    · simp [btreeGet]
    · simp [btreeGet]
    · rw [btreeGet, if_neg h2]
      exact btreeGet_insert_self rest k v

theorem btreeGet_eq_none : ∀ (l : ZMap) (k : String), (∀ b ∈ l, b.1 ≠ k) →
    btreeGet l k = none
  | [], _, _ => rfl
  | (q, w) :: rest, k, h => by
    have hq : ¬ (k = q) := fun hkq => h (q, w) (List.mem_cons_self _ _) hkq.symm
    rw [btreeGet, if_neg hq]
    exact btreeGet_eq_none rest k (fun b hb => h b (List.mem_cons_of_mem _ hb))

theorem btreeGet_remove_self : ∀ (l : ZMap), zmapSorted l → ∀ (k : String),
    btreeGet (btreeRemove l k).2 k = none
  | [], _, _ => rfl
  | (q, w) :: rest, h, k => by
    obtain ⟨hq, hrest⟩ := List.pairwise_cons.mp h
    rw [btreeRemove]
    split_ifs with h1
    · show btreeGet rest k = none
      subst h1
      exact btreeGet_eq_none rest k (fun b hb => ne_of_gt (hq b hb))
    · show btreeGet ((q, w) :: (btreeRemove rest k).2) k = none
      rw [btreeGet, if_neg h1]
      exact btreeGet_remove_self rest hrest k

theorem countP_btreeInsert : ∀ (l : ZMap), zmapSorted l → ∀ (k : String) (v : Score),
    (btreeInsert l k v).countP (fun b => b.1 == k) = 1
  | [], _, k, v => by simp [btreeInsert]
  | (q, w) :: rest, h, k, v => by
    obtain ⟨hq, hrest⟩ := List.pairwise_cons.mp h
    rw [btreeInsert]
    split_ifs with h1 h2
    · have hk : k < q := (strLtb_iff k q).mp h1
      have h0 : ((q, w) :: rest).countP (fun b => b.1 == k) = 0 := by
        rw [List.countP_eq_zero]
        intro b hb
        rcases List.mem_cons.mp hb with rfl | hb2
        · simp [ne_of_gt hk]
        · simp [ne_of_gt (lt_trans hk (hq b hb2))]
      rw [List.countP_cons, h0]
      simp
    · subst h2
      have h0 : rest.countP (fun b => b.1 == k) = 0 := by
        rw [List.countP_eq_zero]
        intro b hb
        simp [ne_of_gt (hq b hb)]
      rw [List.countP_cons, h0]
      simp
    · have hqk : q ≠ k := fun he => h2 he.symm
      rw [List.countP_cons, countP_btreeInsert rest hrest k v]
      simp [hqk]

/-- Invariant: every sorted set stored in the state is strictly sorted by
member string. -/
def zsorted (s : DCS) : Prop :=
  ∀ (k : String) (l : ZMap), s.zset_store k = some l → zmapSorted l

theorem zsorted_new : zsorted DCS.new := by
  intro k l h
  simp [DCS.new, Map.empty] at h

theorem zsorted_getD {s : DCS} (hs : zsorted s) (k : String) :
    zmapSorted ((s.zset_store k).getD []) := by
  cases h : s.zset_store k with
  | none => exact List.Pairwise.nil
  | some l => exact hs k l h

theorem zsorted_apply {s : DCS} (hs : zsorted s) (op : Op) : zsorted (op.apply s) := by
  cases op
  case zset_add k sc v =>
    intro q l hq
    simp only [Op.apply, DCS.zset_add] at hq
    by_cases hqk : q = k
    · subst hqk
      rw [Map.insert_self] at hq
      cases hq
      exact zmapSorted_btreeInsert _ (zsorted_getD hs q) _ _
    · rw [Map.insert_ne _ _ _ hqk] at hq
      exact hs q l hq
  case zset_remove k v =>
    intro q l hq
    rcases h0 : s.zset_store k with _ | z
    · simp only [Op.apply, DCS.zset_remove, h0] at hq
      exact hs q l hq
    · simp only [Op.apply, DCS.zset_remove, h0] at hq
      by_cases hqk : q = k
      · subst hqk
        rw [Map.insert_self] at hq
        cases hq
        exact ((hs q z h0).sublist (btreeRemove_sublist z v))
      · rw [Map.insert_ne _ _ _ hqk] at hq
        exact hs q l hq
  all_goals
    intro q l hq
    first
      | exact hs q l hq
      | (simp only [Op.apply, DCS.list_pop, DCS.hash_del, DCS.set_remove] at hq
         split at hq
         all_goals exact hs q l hq)

theorem zsorted_runOps : ∀ (ops : List Op) (s : DCS), zsorted s → zsorted (runOps s ops)
  | [], _, hs => hs
  | op :: ops, s, hs => zsorted_runOps ops (op.apply s) (zsorted_apply hs op)

/-- C1 (amended): the underlying container of every reachable sorted set
keeps its entries strictly sorted by ascending member string — the key order
of the source's `BTreeMap<String, f64>`, which is keyed by member, not by
score.  No operation violates this order, so iterating the container visits
members by ascending member string (scores in no particular order). -/
theorem C1_zset_sorted_by_member (ops : List Op) (k : String) (l : ZMap)
    (h : (runOps DCS.new ops).zset_store k = some l) : zmapSorted l :=
  zsorted_runOps ops DCS.new zsorted_new k l h

/-- Concrete instance of `C1_zset_sorted_by_member`: adding members "b" then
"a" stores them as `[("a", 1), ("b", 2)]`, sorted by member. -/
theorem C1_zset_sorted_by_member_witness :
    ((runOps DCS.new [Op.zset_add "k" 2 "b", Op.zset_add "k" 1 "a"]).zset_store "k" =
        some [("a", 1), ("b", 2)]) ∧
    zmapSorted [("a", 1), ("b", 2)] :=
  ⟨by decide, C1_zset_sorted_by_member [Op.zset_add "k" 2 "b", Op.zset_add "k" 1 "a"] "k"
      [("a", 1), ("b", 2)] (by decide)⟩

/-- C1 as stated is false on the code: the sorted-set container is keyed by
member string, not score, so after `zset_add("k", 2.0, "a")` and
`zset_add("k", 1.0, "b")` the storage holds `[("a", 2), ("b", 1)]`, whose
iteration order has descending scores — not the claimed ascending-score
order (ties by member). -/
theorem C1_counterexample :
    ((((DCS.new.zset_add "k" 2 "a").zset_add "k" 1 "b").zset_store "k") =
        some [("a", 2), ("b", 1)]) ∧
    specScoreOrdered [("a", 2), ("b", 1)] = false := by
  decide

theorem zset_remove_then_score (s : DCS) (k v : String) (l : ZMap)
    (h : s.zset_store k = some l) (hl : zmapSorted l) :
    (s.zset_remove k v).2.zset_score k v = none := by
  simp only [DCS.zset_remove, h]
  simp only [DCS.zset_score, Map.insert_self]
  exact btreeGet_remove_self l hl v

/-- C8: on a sorted set obeying the member-order invariant, adding a member
with score 1 then again with score 2 leaves exactly one entry for it whose
score reads back as 2 (last write wins, membership unique), and removing it
makes its score absent. -/
theorem C8_zset_upsert (s : DCS) (k v : String)
    (h : zmapSorted ((s.zset_store k).getD [])) :
    (((s.zset_add k 1 v).zset_add k 2 v).zset_score k v = some 2) ∧
    (((((s.zset_add k 1 v).zset_add k 2 v).zset_store k).getD []).countP
        (fun b => b.1 == v) = 1) ∧
    ((((s.zset_add k 1 v).zset_add k 2 v).zset_remove k v).2.zset_score k v = none) := by
  have h1 : (s.zset_add k 1 v).zset_store k
      = some (btreeInsert ((s.zset_store k).getD []) v 1) := by
    simp [DCS.zset_add, Map.insert_self]
  have hl1 : zmapSorted (btreeInsert ((s.zset_store k).getD []) v 1) :=
    zmapSorted_btreeInsert _ h v 1
  have h2 : ((s.zset_add k 1 v).zset_add k 2 v).zset_store k =
      some (btreeInsert (btreeInsert ((s.zset_store k).getD []) v 1) v 2) := by
    simp [DCS.zset_add, Map.insert_self, h1]
  have hl2 : zmapSorted (btreeInsert (btreeInsert ((s.zset_store k).getD []) v 1) v 2) :=
    zmapSorted_btreeInsert _ hl1 v 2
  refine ⟨?_, ?_, ?_⟩
  · rw [DCS.zset_score, h2]
    exact btreeGet_insert_self _ v 2
  · rw [h2]
    simp only [Option.getD_some]
    exact countP_btreeInsert _ hl1 v 2
  · exact zset_remove_then_score _ k v _ h2 hl2

/-- Concrete instance of `C8_zset_upsert` on the fresh store. -/
theorem C8_zset_upsert_witness :
    zmapSorted ((DCS.new.zset_store "k").getD []) ∧
    ((((DCS.new.zset_add "k" 1 "a").zset_add "k" 2 "a").zset_score "k" "a" = some 2) ∧
     (((((DCS.new.zset_add "k" 1 "a").zset_add "k" 2 "a").zset_store "k").getD []).countP
        (fun b => b.1 == "a") = 1) ∧
     ((((DCS.new.zset_add "k" 1 "a").zset_add "k" 2 "a").zset_remove "k" "a").2.zset_score
        "k" "a" = none)) :=
  ⟨List.Pairwise.nil, C8_zset_upsert DCS.new "k" "a" List.Pairwise.nil⟩
